import Mathlib

/-!
# Verification of `server/go/utils.go` (scalabel)

A shallow embedding of the data-access helpers of the scalabel Go server.

Conventions of the embedding.

* A Go `string` is the Lean `String` of its code points (file names and keys are
  valid UTF-8).  `len` is the number of bytes, byte-wise comparison of two strings
  coincides with the code-point comparison `strLess`, and an index returned by
  `strings.LastIndex` is only ever used to slice the string it was computed from,
  so it is kept as a position in the character list.
* A Go result `(v, err)` is a pair whose second component is `none` for `nil`.
* The local backend is a tree of directories and regular files (no symbolic
  links, no permissions).  `env.DataDir` is given by the components of the
  absolute location it denotes.
* The remote backend is given by the responses of the DynamoDB client `svc`.
* The record types `Project`, `Task`, `Assignment`, their decoders and the
  configuration `env` are declared outside `utils.go`; they are parameters.
-/

namespace Scalabel

/-! ## Strings (`strings`, `strconv`, `unicode/utf8`) -/

/-- Go `len(s)` on a string: the number of bytes. -/
def len (s : String) : Nat := s.utf8ByteSize

/-- Position of the last occurrence of `c` in a character list. -/
def lastIdx (c : Char) : List Char → Option Nat
  | [] => none
  | x :: xs =>
    match lastIdx c xs with
    | some i => some (i + 1)
    | none => if x = c then some 0 else none

/-- Go `strings.LastIndex(s, sep)` for a one-character separator: `-1` when absent. -/
def LastIndex (s : String) (c : Char) : Int :=
  match lastIdx c s.data with
  | some i => (i : Int)
  | none => -1

/-- Go `strings.Replace(s, " ", "_", -1)`. -/
def replaceSpaces (s : String) : String :=
  ⟨s.data.map (fun c => if c = ' ' then '_' else c)⟩

/-- Go `strconv.Itoa`. -/
def Itoa (i : Int) : String :=
  if i < 0 then "-" ++ Nat.repr i.natAbs else Nat.repr i.natAbs

/-- Byte-wise `<` of Go strings. -/
def charsLess : List Char → List Char → Bool
  | _, [] => false
  | [], _ :: _ => true
  | a :: as, b :: bs =>
    if a.toNat < b.toNat then true
    else if b.toNat < a.toNat then false
    else charsLess as bs

/-- Go `a < b` on strings. -/
def strLess (a b : String) : Bool := charsLess a.data b.data

/-- Reading of a string of decimal digits (`none` unless non-empty and all digits). -/
def parseDecimal (s : String) : Option Nat :=
  if s.data ≠ [] ∧ s.data.all Char.isDigit then
    some (s.data.foldl (fun n c => n * 10 + (c.toNat - 48)) 0)
  else none

/-! ## Slash-separated paths (`path`) -/

/-- The loop `for len(path) > 0 && path[len(path)-1] == '/'` of `path.Base`. -/
def stripTrailingSlashes (p : List Char) : List Char :=
  (p.reverse.dropWhile (fun c => c = '/')).reverse

/-- Go `path.Base`. -/
def Base (path : String) : String :=
  if path = "" then "."
  else
    let p := stripTrailingSlashes path.data
    let p := match lastIdx '/' p with
      | some i => p.drop (i + 1)
      | none => p
    if p = [] then "/" else ⟨p⟩

/-- The backwards scan of `path.Ext`: `rev` is the not yet visited part, reversed,
`acc` the visited suffix. -/
def extScan : List Char → List Char → List Char
  | [], _ => []
  | c :: rev, acc =>
    if c = '/' then []
    else if c = '.' then c :: acc
    else extScan rev (c :: acc)

/-- Go `path.Ext`. -/
def Ext (path : String) : String := ⟨extScan path.data.reverse []⟩

/-! ## Pure helpers of `utils.go` -/

/-- The function `GetHandlerUrl` of `utils.go`. -/
def GetHandlerUrl (itemType labelType : String) : String :=
  if itemType = "image" then
    if labelType = "box2d" ∨ labelType = "segmentation" ∨ labelType = "lane" then
      "2d_labeling"
    else "NO_VALID_HANDLER"
  else if itemType = "video" then
    if labelType = "box2d" ∨ labelType = "segmentation" then "2d_labeling"
    else "NO_VALID_HANDLER"
  else if itemType = "pointcloud" then
    if labelType = "box3d" then "3d_labeling" else "NO_VALID_HANDLER"
  else "NO_VALID_HANDLER"

/-- The loop of `formatID`, run for the `k` iterations that remain. -/
def formatIDLoop : Nat → String → String
  | 0, str => str
  | k + 1, str => formatIDLoop k ("0" ++ str)

/-- The function `formatID` of `utils.go`: the loop `for i := 0; i < (4 - strLen); i += 1` runs
`(4 - strLen).toNat` times. -/
def formatID (id : Int) : String :=
  let str := Itoa id
  let strLen : Int := str.length
  formatIDLoop (4 - strLen).toNat str

/-- The function `PathStem` of `utils.go`. -/
def PathStem (name : String) : String :=
  let name := Base name
  let dotIndex := LastIndex name '.'
  if dotIndex < 0 then name else ⟨name.data.take dotIndex.toNat⟩

/-- Stem of a file name in Python (`pathlib`): the name up to its last dot, unless
that dot is the first or the last character of the name. -/
def pythonStemOfName (name : List Char) : List Char :=
  match lastIdx '.' name with
  | some i => if 0 < i ∧ i + 1 < name.length then name.take i else name
  | none => name

/-- Splitting at every `'/'`. -/
def pieces : List Char → List (List Char)
  | [] => [[]]
  | c :: cs =>
    if c = '/' then [] :: pieces cs
    else match pieces cs with
      | [] => [[c]]
      | p :: ps => (c :: p) :: ps

/-- Python `PurePosixPath(p).stem`: the stem of the last component of `p` that is
neither empty nor `"."` (the empty string when there is none). -/
def pythonStem (p : String) : String :=
  match ((pieces p.data).filter (fun c => c ≠ [] ∧ c ≠ ['.'])).getLast? with
  | some name => ⟨pythonStemOfName name⟩
  | none => ""

/-! ## Errors and results -/

/-- Go `error` values met in `utils.go`. -/
inductive Error where
  /-- Result of `errors.New(msg)`. -/
  | New (msg : String)
  /-- No such file or directory. -/
  | ENOENT
  /-- Not a directory. -/
  | ENOTDIR
  /-- Is a directory. -/
  | EISDIR
  /-- A decoding failure of `json.Unmarshal` or `dynamodbattribute.UnmarshalMap`. -/
  | Decode (msg : String)
  /-- A failure reported by the DynamoDB client. -/
  | Aws (msg : String)
  deriving DecidableEq, Repr

/-- Go `sort.Slice(xs, less)`, as an insertion sort. `sort.Slice` is not stable: the
order given here to elements that `less` does not separate is one of the orders it
may produce, and no theorem depends on it. The theorems use only the contract of
`sort.Slice`: the result is a permutation of the input in which no element is `less`
than an earlier one. -/
def sortSlice {α : Type} (less : α → α → Bool) (xs : List α) : List α :=
  xs.insertionSort (fun a b => less b a = false)

/-! ## The local backend: a tree of directories and files -/

/-- What a directory entry may be called: not empty, not `.` or `..`, no slash. -/
def validName (s : String) : Bool :=
  !(s.data.isEmpty) && !(s.data == ['.']) && !(s.data == ['.', '.']) && !(s.data.elem '/')

/-- The name of a directory entry. -/
abbrev Name := { s : String // validName s = true }

/-- A file-system object. -/
inductive Node where
  /-- A regular file and its contents. -/
  | file (content : String) : Node
  /-- A directory and its entries. -/
  | dir (entries : List (Name × Node)) : Node

/-- An absolute, cleaned path: its components from the root. -/
abbrev Path := List Name

/-- The entry called `c`, if any. -/
def lookupEntry (c : Name) : List (Name × Node) → Option Node
  | [] => none
  | (n, x) :: es => if n = c then some x else lookupEntry c es

/-- Replace the entry called `c` by `x`, or add it when there is none. -/
def putEntry (c : Name) (x : Node) : List (Name × Node) → List (Name × Node)
  | [] => [(c, x)]
  | (n, y) :: es => if n = c then (c, x) :: es else (n, y) :: putEntry c x es

/-- Drop the entry called `c`. -/
def removeEntry (c : Name) : List (Name × Node) → List (Name × Node)
  | [] => []
  | (n, x) :: es => if n = c then removeEntry c es else (n, x) :: removeEntry c es

/-- Path resolution from the node `n`. -/
def walk : Path → Node → Except Error Node
  | [], n => .ok n
  | _ :: _, .file _ => .error .ENOTDIR
  | c :: cs, .dir es =>
    match lookupEntry c es with
    | some x => walk cs x
    | none => .error .ENOENT

/-- Creation of the directory at a path together with the missing parents. -/
def mkdirAllAt : Path → Node → Except Error Node
  | [], .dir es => .ok (.dir es)
  | [], .file _ => .error .ENOTDIR
  | _ :: _, .file _ => .error .ENOTDIR
  | c :: cs, .dir es =>
    match mkdirAllAt cs ((lookupEntry c es).getD (.dir [])) with
    | .ok x => .ok (.dir (putEntry c x es))
    | .error e => .error e

/-- Removal of the object at a path and of everything below it (of the root only the
contents can be removed; a path that leads nowhere removes nothing). -/
def removeAllAt : Path → Node → Node
  | [], .dir _ => .dir []
  | [], .file content => .file content
  | _ :: _, .file content => .file content
  | c :: cs, .dir es =>
    match cs with
    | [] => .dir (removeEntry c es)
    | _ :: _ =>
      match lookupEntry c es with
      | some x => .dir (putEntry c (removeAllAt cs x) es)
      | none => .dir es

/-- Go `os.MkdirAll(path, 0777)`: the error and the file system afterwards (unchanged
on failure). -/
def MkdirAll (fs : Node) (path : Path) : Option Error × Node :=
  match mkdirAllAt path fs with
  | .ok fs1 => (none, fs1)
  | .error e => (some e, fs)

/-- Go `os.RemoveAll(path)`, whose error `utils.go` never reads. -/
def RemoveAll (fs : Node) (path : Path) : Node := removeAllAt path fs

/-- Go `ioutil.ReadFile(path)`. -/
def ReadFile (fs : Node) (path : Path) : Except Error String :=
  match walk path fs with
  | .ok (.file content) => .ok content
  | .ok (.dir _) => .error .EISDIR
  | .error e => .error e

/-- Go `ioutil.ReadDir(path)`: the names of the entries, sorted by file name. -/
def ReadDir (fs : Node) (path : Path) : Except Error (List String) :=
  match walk path fs with
  | .ok (.dir es) => .ok (sortSlice strLess (es.map (fun e => e.1.val)))
  | .ok (.file _) => .error .ENOTDIR
  | .error e => .error e

/-- One component met by `path.Clean`: empty and `.` components are dropped, `..`
removes the component before it (and is dropped at the root); a component cut out
between two slashes is always a valid name otherwise. -/
def cleanStep (stack : Path) (piece : List Char) : Path :=
  if piece = [] ∨ piece = ['.'] then stack
  else if piece = ['.', '.'] then stack.dropLast
  else if h : validName ⟨piece⟩ = true then stack ++ [⟨⟨piece⟩, h⟩]
  else stack

/-- Go `path.Join(base, elems...)` for an absolute cleaned `base`. -/
def Join (base : Path) (elems : List String) : Path :=
  (elems.map (fun e => pieces e.data)).flatten.foldl cleanStep base

/-! ## Configuration and record types -/

/-- The fields of the global `env` read by `utils.go`. -/
structure Env where
  /-- The data directory, as the components of its absolute location. -/
  DataDir : Path
  /-- Whether the remote backend is selected. -/
  Database : Bool

/-- The declarations of the record types that `utils.go` relies on. -/
structure Records (Project Task Assignment Item : Type) where
  /-- A `Project` decoded by `json.Unmarshal` from the bytes of a file. -/
  unmarshalProject : String → Except Error Project
  /-- A `Task` decoded by `json.Unmarshal`. -/
  unmarshalTask : String → Except Error Task
  /-- An `Assignment` decoded by `json.Unmarshal`. -/
  unmarshalAssignment : String → Except Error Assignment
  /-- A `Task` decoded by `dynamodbattribute.UnmarshalMap`. -/
  unmarshalMapTask : Item → Except Error Task
  /-- An `Assignment` decoded by `dynamodbattribute.UnmarshalMap`. -/
  unmarshalMapAssignment : Item → Except Error Assignment
  /-- The field `Index` of a `Task`. -/
  Index : Task → Int

/-- The responses of the DynamoDB client `svc`: the items and the error of a filtered
`Scan` of a table, and the item and the error of a `GetItem` by key. -/
structure Svc (Item : Type) where
  /-- The call `svc.Scan` of `tableName` filtered by `attr = value`. -/
  Scan : (tableName attr value : String) → List Item × Option Error
  /-- The call `svc.GetItem` from `tableName` with `keyName = key`. -/
  GetItem : (tableName keyName key : String) → Item × Option Error

section Accessors

variable {Project Task Assignment Item : Type}

/-- The function `GetProjectLocal` of `utils.go`. -/
def GetProjectLocal [Inhabited Project] (R : Records Project Task Assignment Item) (env : Env)
    (projectName : String) (fs : Node) : (Project × Option Error) × Node :=
  match MkdirAll fs env.DataDir with
  | (some err, fs) => ((default, some err), fs)
  | (none, fs) =>
    let projectFilePath := Join env.DataDir [projectName, "project.json"]
    match ReadFile fs projectFilePath with
    | .error err => ((default, some err), fs)
    | .ok projectFileContents =>
      match R.unmarshalProject projectFileContents with
      | .error err => ((default, some err), fs)
      | .ok project => ((project, none), fs)

/-- The function `DeleteProjectLocal` of `utils.go`. -/
def DeleteProjectLocal (env : Env) (projectName : String) (fs : Node) :
    Option Error × Node :=
  match MkdirAll fs env.DataDir with
  | (some err, fs) => (some err, fs)
  | (none, fs) =>
    let projectFileDir := Join env.DataDir [projectName]
    (none, RemoveAll fs projectFileDir)

/-- The loop of `GetTasksInProjectLocal` over the directory listing. -/
def readTaskFiles (R : Records Project Task Assignment Item) (fs : Node)
    (projectTasksPath : Path) : List String → List Task → List Task × Option Error
  | [], tasks => (tasks, none)
  | name :: rest, tasks =>
    if len name > 5 ∧ Ext name = ".json" then
      match ReadFile fs (Join projectTasksPath [name]) with
      | .error err => ([], some err)
      | .ok taskFileContents =>
        match R.unmarshalTask taskFileContents with
        | .error err => ([], some err)
        | .ok task => readTaskFiles R fs projectTasksPath rest (tasks ++ [task])
    else readTaskFiles R fs projectTasksPath rest tasks

/-- The function `GetTasksInProjectLocal` of `utils.go`. -/
def GetTasksInProjectLocal (R : Records Project Task Assignment Item) (env : Env)
    (projectName : String) (fs : Node) : (List Task × Option Error) × Node :=
  let projectTasksPath := Join env.DataDir [projectName, "tasks"]
  let fs := (MkdirAll fs projectTasksPath).2
  match ReadDir fs projectTasksPath with
  | .error err => (([], some err), fs)
  | .ok tasksDirectoryContents =>
    match readTaskFiles R fs projectTasksPath tasksDirectoryContents [] with
    | (_, some err) => (([], some err), fs)
    | (tasks, none) =>
      ((sortSlice (fun a b => decide (R.Index a < R.Index b)) tasks, none), fs)

/-- The loop of `GetTasksInProjectDatabase` over the scanned items. -/
def unmarshalItems (R : Records Project Task Assignment Item) :
    List Item → List Task → List Task × Option Error
  | [], tasks => (tasks, none)
  | i :: rest, tasks =>
    match R.unmarshalMapTask i with
    | .error err => ([], some err)
    | .ok task => unmarshalItems R rest (tasks ++ [task])

/-- The function `GetTasksInProjectDatabase` of `utils.go`: the error of `svc.Scan` is
assigned and overwritten, never read. -/
def GetTasksInProjectDatabase (R : Records Project Task Assignment Item)
    (svc : Svc Item) (projectName : String) : List Task × Option Error :=
  let result := svc.Scan "Task" "ProjectName" projectName
  unmarshalItems R result.1 []

/-- The function `GetTasksInProject` of `utils.go`. -/
def GetTasksInProject (R : Records Project Task Assignment Item) (env : Env)
    (svc : Svc Item) (projectName : String) (fs : Node) :
    (List Task × Option Error) × Node :=
  if projectName = "" then (([], some (Error.New "Empty project name")), fs)
  else if env.Database then (GetTasksInProjectDatabase R svc projectName, fs)
  else GetTasksInProjectLocal R env projectName fs

/-- The function `GetAssignmentLocal` of `utils.go`. -/
def GetAssignmentLocal [Inhabited Assignment] (R : Records Project Task Assignment Item) (env : Env)
    (projectName taskIndex workerId : String) (fs : Node) :
    (Assignment × Option Error) × Node :=
  let submissionsPath := Join env.DataDir [projectName, "submissions", taskIndex, workerId]
  let fs := (MkdirAll fs submissionsPath).2
  match ReadDir fs submissionsPath with
  | .error err => ((default, some err), fs)
  | .ok submissionsDirectoryContents =>
    let submissionsDirectoryJSONs :=
      submissionsDirectoryContents.filter (fun fi => Ext fi = ".json")
    -- `len(submissionsDirectoryJSONs) > 0`, then the element at `len - 1`
    match submissionsDirectoryJSONs.getLast? with
    | some last =>
      match ReadFile fs (Join submissionsPath [last]) with
      | .error err => ((default, some err), fs)
      | .ok submissionFileContents =>
        match R.unmarshalAssignment submissionFileContents with
        | .error err => ((default, some err), fs)
        | .ok assignment => ((assignment, none), fs)
    | none =>
      let assignmentPath :=
        Join env.DataDir [projectName, "assignments", taskIndex, workerId ++ ".json"]
      match ReadFile fs assignmentPath with
      | .error err => ((default, some err), fs)
      | .ok assignmentFileContents =>
        match R.unmarshalAssignment assignmentFileContents with
        | .error err => ((default, some err), fs)
        | .ok assignment => ((assignment, none), fs)

/-- The function `GetAssignmentDatabase` of `utils.go`: the error of `svc.Scan` is never read. -/
def GetAssignmentDatabase [Inhabited Assignment] (R : Records Project Task Assignment Item) (svc : Svc Item)
    (projectName taskIndex workerId : String) : Assignment × Option Error :=
  let primaryKey := projectName ++ taskIndex ++ workerId
  let result := svc.Scan "Submission" "PrimaryKey" primaryKey
  match result.1 with
  | item :: _ =>
    match R.unmarshalMapAssignment item with
    | .error err => (default, some err)
    | .ok assignment => (assignment, none)
  | [] =>
    match svc.GetItem "Assignment" "PrimaryKey" primaryKey with
    | (_, some err) => (default, some err)
    | (item, none) =>
      match R.unmarshalMapAssignment item with
      | .error err => (default, some err)
      | .ok assignment => (assignment, none)

end Accessors

/-- The loop of `CheckProjectNameLocal` over the entries of the data directory. -/
def checkFiles (newName : String) : List String → String
  | [] => newName
  | f :: files => if PathStem f = newName then "" else checkFiles newName files

/-- The function `CheckProjectNameLocal` of `utils.go` (the message written to the error log is not kept). -/
def CheckProjectNameLocal (env : Env) (projectName : String) (fs : Node) :
    String × Node :=
  let newName := replaceSpaces projectName
  let fs := (MkdirAll fs env.DataDir).2
  match ReadDir fs env.DataDir with
  | .error _ => (newName, fs)
  | .ok files => (checkFiles newName files, fs)

/-! ## Vocabulary of the statements -/

section Vocabulary

variable {Project Task Assignment Item : Type}

/-- What reading and decoding a directory entry as an `Assignment` yields: the decoded
record of a regular file (or its decoding error), and the read error of a directory. -/
def decodeEntry [Inhabited Assignment] (R : Records Project Task Assignment Item) : Node → Assignment × Option Error
  | .file content =>
    match R.unmarshalAssignment content with
    | .ok assignment => (assignment, none)
    | .error err => (default, some err)
  | .dir _ => (default, some .EISDIR)

/-- The task file called `name` in the directory `dir` of `fs` decodes to `task`. -/
def DecodesTo (R : Records Project Task Assignment Item) (fs : Node) (dir : Path)
    (name : String) (task : Task) : Prop :=
  ∃ content, ReadFile fs (Join dir [name]) = .ok content ∧ R.unmarshalTask content = .ok task

/-- The result of `GetTasksInProjectLocal` once the tasks directory `dir` has been
created: what the listing, the loop and the sort compute from the file system `fs`. -/
def listedTasks (R : Records Project Task Assignment Item) (dir : Path) (fs : Node) :
    List Task × Option Error :=
  match ReadDir fs dir with
  | .error err => ([], some err)
  | .ok names =>
    match readTaskFiles R fs dir names [] with
    | (_, some err) => ([], some err)
    | (tasks, none) => (sortSlice (fun a b => decide (R.Index a < R.Index b)) tasks, none)

end Vocabulary

/-! ## Concrete inputs -/

/-- Records used in the examples: a project and an assignment are the text of their
file, a task is its index, written in decimal digits. -/
def exampleRecords : Records String Int String String where
  unmarshalProject := fun s => .ok s
  unmarshalTask := fun s =>
    match parseDecimal s with
    | some n => .ok (n : Int)
    | none => .error (.Decode "invalid character")
  unmarshalAssignment := fun s => if s = "" then .error (.Decode "unexpected end") else .ok s
  unmarshalMapTask := fun s =>
    match parseDecimal s with
    | some n => .ok (n : Int)
    | none => .error (.Decode "invalid character")
  unmarshalMapAssignment := fun s => .ok s
  Index := id

/-- The data directory `/data`, local backend. -/
def exampleEnv : Env := ⟨[⟨"data", by decide⟩], false⟩

/-- The data directory `/data`, remote backend. -/
def exampleEnvDatabase : Env := ⟨[⟨"data", by decide⟩], true⟩

/-- The entries of `/data/p/submissions/0000/w`: two submissions and a stray file. -/
def exampleSubmissions : List (Name × Node) :=
  [(⟨"2019-02.json", by decide⟩, .file "second"),
   (⟨"2019-01.json", by decide⟩, .file "first"),
   (⟨"notes.txt", by decide⟩, .file "stray")]

/-- A file system with one project `p`: three tasks stored in the order 0002, 0000,
0001, an assignment of `w` for task 0000 and two submissions. -/
def exampleFS : Node :=
  .dir [(⟨"data", by decide⟩, .dir [(⟨"p", by decide⟩, .dir [
    (⟨"project.json", by decide⟩, .file "project p"),
    (⟨"tasks", by decide⟩, .dir [
      (⟨"0002.json", by decide⟩, .file "2"),
      (⟨"0000.json", by decide⟩, .file "0"),
      (⟨"0001.json", by decide⟩, .file "1")]),
    (⟨"assignments", by decide⟩, .dir [(⟨"0000", by decide⟩, .dir [
      (⟨"w.json", by decide⟩, .file "pristine")])]),
    (⟨"submissions", by decide⟩, .dir [(⟨"0000", by decide⟩, .dir [
      (⟨"w", by decide⟩, .dir exampleSubmissions)])])])])]

/-- A project `p` with an assignment of `w` for task 0000 and no `submissions`
directory yet. -/
def pristineFS : Node :=
  .dir [(⟨"data", by decide⟩, .dir [(⟨"p", by decide⟩, .dir [
    (⟨"assignments", by decide⟩, .dir [(⟨"0000", by decide⟩, .dir [
      (⟨"w.json", by decide⟩, .file "pristine")])])])])]

/-- A project `p` with an assignment of `w` for task 0000, in which `submissions` is a
regular file. -/
def blockedFS : Node :=
  .dir [(⟨"data", by decide⟩, .dir [(⟨"p", by decide⟩, .dir [
    (⟨"assignments", by decide⟩, .dir [(⟨"0000", by decide⟩, .dir [
      (⟨"w.json", by decide⟩, .file "pristine")])]),
    (⟨"submissions", by decide⟩, .file "not a directory")])])]

/-- A project `p` whose tasks directory holds two files with the same index. -/
def duplicateIndexFS : Node :=
  .dir [(⟨"data", by decide⟩, .dir [(⟨"p", by decide⟩, .dir [
    (⟨"tasks", by decide⟩, .dir [
      (⟨"0001.json", by decide⟩, .file "1"),
      (⟨"0001_copy.json", by decide⟩, .file "1")])])])]

/-- A data directory whose only project is called `v1.0`. -/
def dottedFS : Node :=
  .dir [(⟨"data", by decide⟩, .dir [(⟨"v1.0", by decide⟩, .dir [
    (⟨"project.json", by decide⟩, .file "project v1.0")])])]

/-- A DynamoDB client whose scans fail, and whose `GetItem` finds the item
`"pristine"`. -/
def failingScanSvc : Svc String where
  Scan := fun _ _ _ => ([], some (.Aws "ProvisionedThroughputExceededException"))
  GetItem := fun _ _ _ => ("pristine", none)

/-! # Theorems -/

/-! ## The handler table -/

/-- C9: `GetHandlerUrl` is a total decision table: it returns "2d_labeling" exactly
for image with box2d, segmentation or lane and for video with box2d or segmentation,
"3d_labeling" exactly for pointcloud with box3d, and "NO_VALID_HANDLER" exactly in
every other case. -/
theorem GetHandlerUrl_table (itemType labelType : String) :
    (GetHandlerUrl itemType labelType = "2d_labeling" ↔
      (itemType = "image" ∧
        (labelType = "box2d" ∨ labelType = "segmentation" ∨ labelType = "lane")) ∨
      (itemType = "video" ∧ (labelType = "box2d" ∨ labelType = "segmentation"))) ∧
    (GetHandlerUrl itemType labelType = "3d_labeling" ↔
      (itemType = "pointcloud" ∧ labelType = "box3d")) ∧
    (GetHandlerUrl itemType labelType = "NO_VALID_HANDLER" ↔
      ¬ ((itemType = "image" ∧
          (labelType = "box2d" ∨ labelType = "segmentation" ∨ labelType = "lane")) ∨
        (itemType = "video" ∧ (labelType = "box2d" ∨ labelType = "segmentation"))) ∧
      ¬ (itemType = "pointcloud" ∧ labelType = "box3d")) := by
  have h1 : ("2d_labeling" : String) ≠ "NO_VALID_HANDLER" := by decide
  have h2 : ("3d_labeling" : String) ≠ "NO_VALID_HANDLER" := by decide
  have h3 : ("2d_labeling" : String) ≠ "3d_labeling" := by decide
  have h4 : ("image" : String) ≠ "video" := by decide
  have h5 : ("image" : String) ≠ "pointcloud" := by decide
  have h6 : ("video" : String) ≠ "pointcloud" := by decide
  unfold GetHandlerUrl
  by_cases hi : itemType = "image"
  · subst hi
    by_cases hl : (labelType = "box2d" ∨ labelType = "segmentation" ∨ labelType = "lane")
    all_goals simp [hl, h1, h2, h3, h4, h5, h6, Ne.symm h1, Ne.symm h2, Ne.symm h3]
  · by_cases hv : itemType = "video"
    · subst hv
      by_cases hl : (labelType = "box2d" ∨ labelType = "segmentation")
      all_goals simp [hl, h1, h2, h3, h4, h5, h6, Ne.symm h1, Ne.symm h2, Ne.symm h3, Ne.symm h4]
    · by_cases hp : itemType = "pointcloud"
      · subst hp
        by_cases hl : labelType = "box3d"
        all_goals simp [hl, h1, h2, h3, h4, h5, h6, Ne.symm h1, Ne.symm h2, Ne.symm h3, Ne.symm h5, Ne.symm h6]
      · simp [hi, hv, hp, h1, h2, h3, Ne.symm h1, Ne.symm h2, Ne.symm h3]

/-! ## `formatID` -/

theorem toDigitsCore_acc (f : Nat) : ∀ (n : Nat) (ds : List Char),
    Nat.toDigitsCore 10 f n ds = Nat.toDigitsCore 10 f n [] ++ ds := by
  induction f with
  | zero => intro n ds; simp [Nat.toDigitsCore]
  | succ f ih =>
    intro n ds
    simp only [Nat.toDigitsCore]
    split
    · simp
    · rw [ih (n / 10) (Nat.digitChar (n % 10) :: ds), ih (n / 10) [Nat.digitChar (n % 10)]]
      simp

theorem toDigitsCore_fuel (f : Nat) : ∀ (g n : Nat) (ds : List Char), n < f → n < g →
    Nat.toDigitsCore 10 f n ds = Nat.toDigitsCore 10 g n ds := by
  induction f with
  | zero => intro g n ds h; omega
  | succ f ih =>
    intro g n ds hf hg
    cases g with
    | zero => omega
    | succ g =>
      simp only [Nat.toDigitsCore]
      split
      · rfl
      · rename_i h0
        have hlt : n / 10 < n := Nat.div_lt_self (by omega) (by omega)
        exact ih g (n / 10) _ (by omega) (by omega)

theorem toDigits_step (n : Nat) :
    Nat.toDigits 10 n =
      if n / 10 = 0 then [Nat.digitChar (n % 10)]
      else Nat.toDigits 10 (n / 10) ++ [Nat.digitChar (n % 10)] := by
  unfold Nat.toDigits
  rw [Nat.toDigitsCore]
  split
  · rfl
  · rename_i h0
    have hlt : n / 10 < n := Nat.div_lt_self (by omega) (by omega)
    rw [toDigitsCore_acc, toDigitsCore_fuel n (n / 10 + 1) (n / 10) [] hlt (by omega)]

theorem digitChar_isDigit (m : Nat) (h : m < 10) :
    (Nat.digitChar m).isDigit = true ∧ (Nat.digitChar m).toNat - 48 = m := by
  interval_cases m <;> decide

/-- Value read from a list of decimal digits, starting from `a`. -/
theorem foldl_zeros (k : Nat) :
    (List.replicate k '0').foldl (fun n c => n * 10 + (c.toNat - 48)) 0 = 0 := by
  induction k with
  | zero => rfl
  | succ k ih => simpa [List.replicate_succ] using ih

theorem toDigits_facts (n : Nat) :
    (Nat.toDigits 10 n ≠ []) ∧
    (∀ c ∈ Nat.toDigits 10 n, c.isDigit = true) ∧
    ((Nat.toDigits 10 n).foldl (fun n c => n * 10 + (c.toNat - 48)) 0 = n) ∧
    (1000 ≤ n → 4 ≤ (Nat.toDigits 10 n).length) ∧
    (100 ≤ n → 3 ≤ (Nat.toDigits 10 n).length) ∧
    (10 ≤ n → 2 ≤ (Nat.toDigits 10 n).length) ∧
    (1 ≤ (Nat.toDigits 10 n).length) := by
  induction n using Nat.strong_induction_on with
  | _ n ih =>
    have hd := digitChar_isDigit (n % 10) (Nat.mod_lt _ (by omega))
    rw [toDigits_step]
    by_cases h0 : n / 10 = 0
    · have hn : n < 10 := by omega
      have hm : n % 10 = n := Nat.mod_eq_of_lt hn
      simp only [h0, if_true]
      refine ⟨by simp, ?_, ?_, ?_, ?_, ?_, ?_⟩
      · intro c hc
        simp only [List.mem_singleton] at hc
        rw [hc]; exact hd.1
      · simp only [List.foldl]
        rw [hd.2]; omega
      · omega
      · omega
      · omega
      · simp
    · have hlt : n / 10 < n := Nat.div_lt_self (by omega) (by omega)
      obtain ⟨_, i2, i3, i4, i5, i6, i7⟩ := ih (n / 10) hlt
      simp only [h0, if_false]
      refine ⟨by simp, ?_, ?_, ?_, ?_, ?_, ?_⟩
      · intro c hc
        rcases List.mem_append.1 hc with hc | hc
        · exact i2 c hc
        · simp only [List.mem_singleton] at hc
          rw [hc]; exact hd.1
      · rw [List.foldl_append, i3]
        simp only [List.foldl]
        rw [hd.2]; omega
      · intro h; have := i5 (by omega); simp; omega
      · intro h; have := i6 (by omega); simp; omega
      · intro h; simp; omega
      · simp

theorem formatIDLoop_data (k : Nat) : ∀ s : String,
    formatIDLoop k s = ⟨List.replicate k '0' ++ s.data⟩ := by
  induction k with
  | zero => intro s; simp [formatIDLoop]
  | succ k ih =>
    intro s
    rw [formatIDLoop, ih]
    have : ("0" ++ s).data = '0' :: s.data := rfl
    rw [this, List.replicate_succ']
    simp

theorem Itoa_natCast (n : Nat) : Itoa (n : Int) = Nat.repr n := by
  simp [Itoa]

/-- C5: for every non-negative `n`, `formatID n` has length at least 4, is the decimal
representation of `n` preceded only by `'0'` characters, parses back to `n`, and is the
bare decimal representation when `n ≥ 1000`; `formatID 0 = "0000"`,
`formatID 7 = "0007"`, `formatID 12345 = "12345"`. -/
theorem formatID_spec (n : Nat) :
    4 ≤ (formatID (n : Int)).length ∧
    (∃ k : Nat, formatID (n : Int) = ⟨List.replicate k '0' ++ (Itoa (n : Int)).data⟩) ∧
    parseDecimal (formatID (n : Int)) = some n ∧
    (1000 ≤ n → formatID (n : Int) = Itoa (n : Int)) ∧
    formatID 0 = "0000" ∧ formatID 7 = "0007" ∧ formatID 12345 = "12345" := by
  obtain ⟨f1, f2, f3, f4, _, _, _⟩ := toDigits_facts n
  have hdata : (Itoa (n : Int)).data = Nat.toDigits 10 n := by
    rw [Itoa_natCast]; rfl
  have hlen : (Itoa (n : Int)).length = (Nat.toDigits 10 n).length := by
    rw [String.length, hdata]
  have hfmt : formatID (n : Int) =
      ⟨List.replicate (4 - (Nat.toDigits 10 n).length) '0' ++ Nat.toDigits 10 n⟩ := by
    unfold formatID
    simp only []
    rw [formatIDLoop_data, hlen, hdata]
    congr 3
    omega
  refine ⟨?_, ⟨_, by rw [hfmt, hdata]⟩, ?_, ?_, by decide, by decide, by decide⟩
  · rw [hfmt]
    simp only [String.length, List.length_append, List.length_replicate]
    omega
  · rw [hfmt]
    unfold parseDecimal
    have hall : (List.replicate (4 - (Nat.toDigits 10 n).length) '0' ++
        Nat.toDigits 10 n).all Char.isDigit = true := by
      rw [List.all_eq_true]
      intro c hc
      rcases List.mem_append.1 hc with hc | hc
      · rw [(List.mem_replicate.1 hc).2]; decide
      · exact f2 c hc
    have hne : List.replicate (4 - (Nat.toDigits 10 n).length) '0' ++ Nat.toDigits 10 n ≠ [] := by
      simp [f1]
    rw [if_pos ⟨hne, hall⟩, List.foldl_append, foldl_zeros, f3]
  · intro h
    have := f4 h
    rw [hfmt]
    have hz : 4 - (Nat.toDigits 10 n).length = 0 := by omega
    rw [hz]
    apply String.ext
    simp [hdata]

/-! ## `PathStem` -/

theorem lastIdx_none (c : Char) : ∀ l : List Char, lastIdx c l = none ↔ c ∉ l := by
  intro l
  induction l with
  | nil => simp [lastIdx]
  | cons x xs ih =>
    simp only [lastIdx]
    cases h : lastIdx c xs with
    | some i =>
      have hx : ¬ (c ∉ xs) := fun hn => by rw [ih.2 hn] at h; cases h
      simp only [List.mem_cons, not_or]
      constructor
      · intro hh; cases hh
      · intro hh; exact absurd hh.2 hx
    | none =>
      have hx : c ∉ xs := ih.1 h
      by_cases hxc : x = c
      · simp [hxc]
      · simp [hxc, hx, Ne.symm hxc]

theorem lastIdx_some (c : Char) : ∀ (l : List Char) (i : Nat), lastIdx c l = some i →
    ∃ ext, l = l.take i ++ c :: ext ∧ c ∉ ext := by
  intro l
  induction l with
  | nil => intro i h; simp [lastIdx] at h
  | cons x xs ih =>
    intro i h
    simp only [lastIdx] at h
    cases hxs : lastIdx c xs with
    | some j =>
      rw [hxs] at h
      simp only [Option.some.injEq] at h
      subst h
      obtain ⟨ext, h1, h2⟩ := ih j hxs
      refine ⟨ext, ?_, h2⟩
      simp only [List.take_succ_cons, List.cons_append]
      rw [← h1]
    | none =>
      rw [hxs] at h
      by_cases hxc : x = c
      · simp only [hxc, if_true, Option.some.injEq] at h
        subst h
        exact ⟨xs, by simp [hxc], (lastIdx_none c xs).1 hxs⟩
      · simp [hxc] at h

theorem Base_component (p : String) : Base p = "/" ∨ '/' ∉ (Base p).data := by
  unfold Base
  by_cases hp : p = ""
  · right; simp [hp]
  · simp only [hp, if_false]
    cases hi : lastIdx '/' (stripTrailingSlashes p.data) with
    | none =>
      simp only []
      by_cases hl : stripTrailingSlashes p.data = []
      · left; simp [hl]
      · right
        simp only [hl, if_false]
        exact (lastIdx_none '/' _).1 hi
    | some i =>
      simp only []
      obtain ⟨ext, h1, h2⟩ := lastIdx_some '/' _ i hi
      have hlen : ((stripTrailingSlashes p.data).take i).length = i := by
        have h3 := congrArg List.length h1
        simp only [List.length_append, List.length_cons, List.length_take] at h3 ⊢
        omega
      have hdrop : (stripTrailingSlashes p.data).drop (i + 1) = ext := by
        conv_lhs => rw [h1]
        rw [List.drop_append_eq_append_drop]
        simp [hlen]
      rw [hdrop]
      by_cases hl : ext = []
      · left; simp [hl]
      · right
        simp only [hl, if_false]
        exact h2

/-- C6 (amended): `PathStem p` is the final component `Base p` of the path (a single
component, or `"/"` for a path of slashes only), unchanged when it holds no dot, and
otherwise without the text from its last dot on;
`PathStem "a/b/file.tar.gz" = "file.tar"`, `PathStem "noext" = "noext"`; on the empty
path the result is the empty string, as in Python; on `".bashrc"` the result is the
empty string (Python keeps `".bashrc"`). -/
theorem PathStem_spec (p : String) :
    (Base p = "/" ∨ '/' ∉ (Base p).data) ∧
    ('.' ∉ (Base p).data → PathStem p = Base p) ∧
    ('.' ∈ (Base p).data →
      ∃ ext : List Char, (Base p).data = (PathStem p).data ++ '.' :: ext ∧ '.' ∉ ext) ∧
    PathStem "a/b/file.tar.gz" = "file.tar" ∧ PathStem "noext" = "noext" ∧
    PathStem "" = pythonStem "" ∧
    PathStem ".bashrc" = "" ∧ pythonStem ".bashrc" = ".bashrc" := by
  refine ⟨Base_component p, ?_, ?_, by decide, by decide, by decide, by decide, by decide⟩
  · intro h
    have hn := (lastIdx_none '.' (Base p).data).2 h
    simp [PathStem, LastIndex, hn]
  · intro h
    cases hi : lastIdx '.' (Base p).data with
    | none => exact absurd ((lastIdx_none '.' _).1 hi) (by simpa using h)
    | some i =>
      obtain ⟨ext, h1, h2⟩ := lastIdx_some '.' _ i hi
      refine ⟨ext, ?_, h2⟩
      have : PathStem p = ⟨(Base p).data.take i⟩ := by
        simp [PathStem, LastIndex, hi]
      rw [this]
      exact h1

/-- C6 (as stated) fails: on `".bashrc"` the Go function returns the empty string,
Python's stem is `".bashrc"`. -/
theorem PathStem_differs_from_python :
    ¬ (PathStem ".bashrc" = pythonStem ".bashrc") := by decide

/-! ## Order on strings and `sort.Slice` -/

theorem charsLess_irrefl : ∀ a : List Char, charsLess a a = false := by
  intro a
  induction a with
  | nil => rfl
  | cons x xs ih => simp [charsLess, ih]

theorem charsLess_total : ∀ a b : List Char, charsLess b a = false ∨ charsLess a b = false := by
  intro a
  induction a with
  | nil => intro b; left; cases b <;> rfl
  | cons x xs ih =>
    intro b
    cases b with
    | nil => right; rfl
    | cons y ys =>
      simp only [charsLess]
      by_cases h1 : x.toNat < y.toNat
      · left
        have h2 : ¬ y.toNat < x.toNat := by omega
        simp [h1, h2]
      · by_cases h2 : y.toNat < x.toNat
        · right; simp [h1, h2]
        · simp only [h1, h2, if_false]
          exact ih ys

theorem charsLess_trans : ∀ a b c : List Char,
    charsLess b a = false → charsLess c b = false → charsLess c a = false := by
  intro a
  induction a with
  | nil => intro b c _ _; cases c <;> rfl
  | cons x xs ih =>
    intro b c hab hbc
    cases b with
    | nil => simp [charsLess] at hab
    | cons y ys =>
      cases c with
      | nil => simp [charsLess] at hbc
      | cons z zs =>
        simp only [charsLess] at hab hbc ⊢
        by_cases h1 : y.toNat < x.toNat
        · simp [h1] at hab
        · by_cases h2 : x.toNat < y.toNat
          · by_cases h3 : z.toNat < y.toNat
            · simp [h3] at hbc
            · have h4 : ¬ z.toNat < x.toNat := by omega
              have h5 : x.toNat < z.toNat := by omega
              simp [h4, h5]
          · simp only [h1, h2, if_false] at hab
            by_cases h3 : z.toNat < y.toNat
            · simp [h3] at hbc
            · by_cases h4 : y.toNat < z.toNat
              · have h5 : ¬ z.toNat < x.toNat := by omega
                have h6 : x.toNat < z.toNat := by omega
                simp [h5, h6]
              · simp only [h3, h4, if_false] at hbc
                have h5 : ¬ z.toNat < x.toNat := by omega
                have h6 : ¬ x.toNat < z.toNat := by omega
                simp only [h5, h6, if_false]
                exact ih ys zs hab hbc

/-- The output of `sortSlice` is a permutation of its input. -/
theorem sortSlice_perm {α : Type} (less : α → α → Bool) (xs : List α) :
    (sortSlice less xs).Perm xs :=
  List.perm_insertionSort _ xs

/-- In the output of `sortSlice` no element is `less` than an earlier one, when
`less` is the strict part of a total preorder. -/
theorem sortSlice_pairwise {α : Type} (less : α → α → Bool)
    (htotal : ∀ a b, less b a = false ∨ less a b = false)
    (htrans : ∀ a b c, less b a = false → less c b = false → less c a = false)
    (xs : List α) :
    (sortSlice less xs).Pairwise (fun a b => less b a = false) := by
  haveI : IsTotal α (fun a b => less b a = false) := ⟨htotal⟩
  haveI : IsTrans α (fun a b => less b a = false) := ⟨htrans⟩
  exact List.sorted_insertionSort (fun a b => less b a = false) xs

theorem sortNames_pairwise (names : List String) :
    (sortSlice strLess names).Pairwise (fun a b => strLess b a = false) :=
  sortSlice_pairwise strLess (fun a b => charsLess_total a.data b.data)
    (fun a b c => charsLess_trans a.data b.data c.data) names

/-- The last element of a list sorted by a reflexive relation dominates the list. -/
theorem getLast?_dominates {α : Type} (r : α → α → Prop) (hrefl : ∀ a, r a a) :
    ∀ (l : List α) (x : α), l.Pairwise r → l.getLast? = some x → ∀ m ∈ l, r m x := by
  intro l
  induction l with
  | nil => intro x _ h; simp at h
  | cons a as ih =>
    intro x hp hl m hm
    rw [List.pairwise_cons] at hp
    cases as with
    | nil =>
      simp only [List.getLast?_singleton, Option.some.injEq] at hl
      simp only [List.mem_singleton] at hm
      rw [hm, ← hl]; exact hrefl a
    | cons b bs =>
      rw [List.getLast?_cons_cons] at hl
      rcases List.mem_cons.1 hm with hm | hm
      · rw [hm]
        exact hp.1 x (List.mem_of_getLast?_eq_some hl)
      · exact ih x hp.2 hl m hm

/-! ## Directory entries -/

theorem lookupEntry_putEntry_self (c : Name) (x : Node) :
    ∀ es : List (Name × Node), lookupEntry c (putEntry c x es) = some x := by
  intro es
  induction es with
  | nil => simp [putEntry, lookupEntry]
  | cons e es ih =>
    obtain ⟨n, y⟩ := e
    by_cases h : n = c
    · simp [putEntry, lookupEntry, h]
    · simp [putEntry, lookupEntry, h, ih]

theorem putEntry_putEntry (c : Name) (x y : Node) :
    ∀ es : List (Name × Node), putEntry c y (putEntry c x es) = putEntry c y es := by
  intro es
  induction es with
  | nil => simp [putEntry]
  | cons e es ih =>
    obtain ⟨n, z⟩ := e
    by_cases h : n = c
    · simp [putEntry, h]
    · simp [putEntry, h, ih]

theorem putEntry_of_lookupEntry (c : Name) (x : Node) :
    ∀ es : List (Name × Node), lookupEntry c es = some x → putEntry c x es = es := by
  intro es
  induction es with
  | nil => intro h; simp [lookupEntry] at h
  | cons e es ih =>
    obtain ⟨n, z⟩ := e
    intro h
    by_cases hn : n = c
    · simp only [lookupEntry, hn, if_true, Option.some.injEq] at h
      simp [putEntry, hn, h]
    · simp only [lookupEntry, hn, if_false] at h
      simp [putEntry, hn, ih h]

theorem lookupEntry_removeEntry_ne (a b : Name) (hab : a ≠ b) :
    ∀ es : List (Name × Node), lookupEntry b (removeEntry a es) = lookupEntry b es := by
  intro es
  induction es with
  | nil => rfl
  | cons e es ih =>
    obtain ⟨n, z⟩ := e
    by_cases hn : n = a
    · have hnb : ¬ n = b := fun h => hab (hn.symm.trans h)
      simp [removeEntry, hn, lookupEntry, hnb, hab, ih]
    · simp [removeEntry, hn, lookupEntry, ih]

theorem removeEntry_putEntry_comm (a b : Name) (hab : a ≠ b) (x : Node) :
    ∀ es : List (Name × Node),
      removeEntry a (putEntry b x es) = putEntry b x (removeEntry a es) := by
  intro es
  have hba : ¬ b = a := fun h => hab h.symm
  induction es with
  | nil => simp [putEntry, removeEntry, hba]
  | cons e es ih =>
    obtain ⟨n, z⟩ := e
    by_cases hn : n = b
    · have hna : ¬ n = a := fun h => hab (h.symm.trans hn)
      simp [putEntry, removeEntry, hn, hba]
    · by_cases hna : n = a
      · subst hna
        simp [putEntry, removeEntry, hab, ih]
      · simp [putEntry, removeEntry, hn, hna, ih]

theorem lookupEntry_of_mem :
    ∀ (es : List (Name × Node)) (e : Name × Node), e ∈ es →
      ∃ x, lookupEntry e.1 es = some x := by
  intro es
  induction es with
  | nil => intro e h; simp at h
  | cons d es ih =>
    obtain ⟨n, z⟩ := d
    intro e he
    by_cases hn : n = e.1
    · exact ⟨z, by simp [lookupEntry, hn]⟩
    · rcases List.mem_cons.1 he with h | h
      · exact absurd (by rw [h]) hn
      · obtain ⟨x, hx⟩ := ih e h
        exact ⟨x, by simp [lookupEntry, hn, hx]⟩

/-! ## Walking, creating and removing -/

theorem walk_append : ∀ (p q : Path) (n : Node),
    walk (p ++ q) n = match walk p n with
      | .ok m => walk q m
      | .error e => .error e := by
  intro p
  induction p with
  | nil => intro q n; simp [walk]
  | cons c cs ih =>
    intro q n
    cases n with
    | file content => simp [walk]
    | dir es =>
      rw [List.cons_append]
      simp only [walk]
      cases h : lookupEntry c es with
      | none => simp
      | some x => simp [ih]

theorem mkdirAllAt_of_walk : ∀ (p : Path) (n : Node) (es : List (Name × Node)),
    walk p n = .ok (.dir es) → mkdirAllAt p n = .ok n := by
  intro p
  induction p with
  | nil =>
    intro n es h
    simp only [walk, Except.ok.injEq] at h
    subst h
    rfl
  | cons c cs ih =>
    intro n es h
    cases n with
    | file content => simp [walk] at h
    | dir es0 =>
      simp only [walk] at h
      cases hl : lookupEntry c es0 with
      | none => simp [hl] at h
      | some x =>
        simp only [hl] at h
        simp only [mkdirAllAt, hl, Option.getD_some, ih x es h]
        rw [putEntry_of_lookupEntry c x es0 hl]

theorem walk_mkdirAllAt : ∀ (p : Path) (n m : Node),
    mkdirAllAt p n = .ok m → ∃ es, walk p m = .ok (.dir es) := by
  intro p
  induction p with
  | nil =>
    intro n m h
    cases n with
    | file content => simp [mkdirAllAt] at h
    | dir es =>
      simp only [mkdirAllAt, Except.ok.injEq] at h
      subst h
      exact ⟨es, rfl⟩
  | cons c cs ih =>
    intro n m h
    cases n with
    | file content => simp [mkdirAllAt] at h
    | dir es =>
      simp only [mkdirAllAt] at h
      cases hx : mkdirAllAt cs ((lookupEntry c es).getD (.dir [])) with
      | error e => simp [hx] at h
      | ok x =>
        simp only [hx, Except.ok.injEq] at h
        subst h
        simp only [walk, lookupEntry_putEntry_self]
        exact ih _ x hx

theorem walk_below_mkdirAllAt : ∀ (p : Path) (n m : Node) (c : Name) (q : Path),
    mkdirAllAt p n = .ok m → walk (p ++ c :: q) m = walk (p ++ c :: q) n := by
  intro p
  induction p with
  | nil =>
    intro n m c q h
    cases n with
    | file content => simp [mkdirAllAt] at h
    | dir es =>
      simp only [mkdirAllAt, Except.ok.injEq] at h
      subst h
      rfl
  | cons d ds ih =>
    intro n m c q h
    cases n with
    | file content => simp [mkdirAllAt] at h
    | dir es =>
      simp only [mkdirAllAt] at h
      cases hx : mkdirAllAt ds ((lookupEntry d es).getD (.dir [])) with
      | error e => simp [hx] at h
      | ok x =>
        simp only [hx, Except.ok.injEq] at h
        subst h
        rw [List.cons_append]
        simp only [walk, lookupEntry_putEntry_self]
        rw [ih _ x c q hx]
        cases hl : lookupEntry d es with
        | some y => simp
        | none =>
          simp only [Option.getD_none]
          rw [walk_append]
          cases hw : walk ds (.dir []) with
          | error e =>
            cases ds with
            | nil => simp [walk] at hw
            | cons d2 ds2 =>
              simp only [walk, lookupEntry] at hw
              simp only [← hw]
          | ok y =>
            cases ds with
            | nil =>
              simp only [walk, Except.ok.injEq] at hw
              subst hw
              simp [walk, lookupEntry]
            | cons d2 ds2 => simp [walk, lookupEntry] at hw

theorem mkdirAllAt_append : ∀ (p q : Path) (n m : Node),
    mkdirAllAt p n = .ok m → mkdirAllAt (p ++ q) n = mkdirAllAt (p ++ q) m := by
  intro p
  induction p with
  | nil =>
    intro q n m h
    cases n with
    | file content => simp [mkdirAllAt] at h
    | dir es =>
      simp only [mkdirAllAt, Except.ok.injEq] at h
      subst h
      rfl
  | cons c cs ih =>
    intro q n m h
    cases n with
    | file content => simp [mkdirAllAt] at h
    | dir es =>
      simp only [mkdirAllAt] at h
      cases hx : mkdirAllAt cs ((lookupEntry c es).getD (.dir [])) with
      | error e => simp [hx] at h
      | ok x =>
        simp only [hx, Except.ok.injEq] at h
        subst h
        rw [List.cons_append]
        simp only [mkdirAllAt, lookupEntry_putEntry_self, Option.getD_some]
        rw [ih q _ x hx]
        cases mkdirAllAt (cs ++ q) x with
        | error e => rfl
        | ok y => simp [putEntry_putEntry]

theorem removeAllAt_dir_ne_nil (c : Name) (cs : Path) (hcs : cs ≠ []) (es : List (Name × Node)) :
    removeAllAt (c :: cs) (.dir es) =
      match lookupEntry c es with
      | some x => .dir (putEntry c (removeAllAt cs x) es)
      | none => .dir es := by
  cases cs with
  | nil => exact absurd rfl hcs
  | cons d ds => rfl

theorem walk_removeAllAt_ne (a b : Name) (hab : a ≠ b) : ∀ (D : Path) (n : Node) (r : Path),
    walk (D ++ b :: r) (removeAllAt (D ++ [a]) n) = walk (D ++ b :: r) n := by
  intro D
  induction D with
  | nil =>
    intro n r
    cases n with
    | file content => rfl
    | dir es =>
      simp only [List.nil_append, removeAllAt, walk, lookupEntry_removeEntry_ne a b hab]
  | cons d ds ih =>
    intro n r
    cases n with
    | file content => rfl
    | dir es =>
      rw [List.cons_append, List.cons_append, removeAllAt_dir_ne_nil d (ds ++ [a]) (by simp)]
      cases hl : lookupEntry d es with
      | none => rfl
      | some x =>
        simp only [walk, lookupEntry_putEntry_self, hl]
        exact ih x r

theorem walk_removeAllAt_parent (a : Name) : ∀ (D : Path) (n : Node) (es : List (Name × Node)),
    walk D n = .ok (.dir es) →
      walk D (removeAllAt (D ++ [a]) n) = .ok (.dir (removeEntry a es)) := by
  intro D
  induction D with
  | nil =>
    intro n es h
    simp only [walk, Except.ok.injEq] at h
    subst h
    rfl
  | cons d ds ih =>
    intro n es h
    cases n with
    | file content => simp [walk] at h
    | dir es0 =>
      rw [List.cons_append, removeAllAt_dir_ne_nil d (ds ++ [a]) (by simp)]
      simp only [walk] at h
      cases hl : lookupEntry d es0 with
      | none => simp [hl] at h
      | some x =>
        simp only [hl] at h
        simp only [walk, lookupEntry_putEntry_self]
        exact ih x es h

theorem removeAllAt_empty_dir (p : Path) (hp : p ≠ []) : removeAllAt p (.dir []) = .dir [] := by
  cases p with
  | nil => exact absurd rfl hp
  | cons c cs =>
    cases cs with
    | nil => rfl
    | cons d ds => rfl

theorem mkdirAllAt_removeAllAt_comm (a b : Name) (hab : a ≠ b) :
    ∀ (D : Path) (n : Node) (r : Path),
      mkdirAllAt (D ++ b :: r) (removeAllAt (D ++ [a]) n) =
        match mkdirAllAt (D ++ b :: r) n with
        | .ok m => .ok (removeAllAt (D ++ [a]) m)
        | .error e => .error e := by
  intro D
  induction D with
  | nil =>
    intro n r
    cases n with
    | file content => rfl
    | dir es =>
      simp only [List.nil_append, removeAllAt, mkdirAllAt, lookupEntry_removeEntry_ne a b hab]
      cases mkdirAllAt r ((lookupEntry b es).getD (.dir [])) with
      | error e => rfl
      | ok x => simp [removeAllAt, removeEntry_putEntry_comm a b hab]
  | cons d ds ih =>
    intro n r
    cases n with
    | file content => rfl
    | dir es =>
      rw [List.cons_append, List.cons_append, removeAllAt_dir_ne_nil d (ds ++ [a]) (by simp)]
      cases hl : lookupEntry d es with
      | some x =>
        simp only [mkdirAllAt, lookupEntry_putEntry_self, Option.getD_some, hl]
        rw [ih x r]
        cases mkdirAllAt (ds ++ b :: r) x with
        | error e => rfl
        | ok y =>
          simp only []
          rw [removeAllAt_dir_ne_nil d (ds ++ [a]) (by simp)]
          simp [lookupEntry_putEntry_self, putEntry_putEntry]
      | none =>
        simp only [mkdirAllAt, hl, Option.getD_none]
        have hih := ih (.dir []) r
        rw [removeAllAt_empty_dir (ds ++ [a]) (by simp)] at hih
        cases hm : mkdirAllAt (ds ++ b :: r) (.dir []) with
        | error e => rfl
        | ok y =>
          rw [hm] at hih
          simp only [Except.ok.injEq] at hih
          simp only []
          rw [removeAllAt_dir_ne_nil d (ds ++ [a]) (by simp)]
          simp only [lookupEntry_putEntry_self, putEntry_putEntry]
          rw [← hih]

/-! ## `Join` on valid names -/

theorem pieces_of_no_slash : ∀ l : List Char, '/' ∉ l → pieces l = [l] := by
  intro l
  induction l with
  | nil => intro _; rfl
  | cons c cs ih =>
    intro h
    simp only [List.mem_cons, not_or] at h
    have hc : ¬ c = '/' := fun e => h.1 e.symm
    simp [pieces, hc, ih h.2]

theorem validName_facts (s : String) (h : validName s = true) :
    s.data ≠ [] ∧ s.data ≠ ['.'] ∧ s.data ≠ ['.', '.'] ∧ '/' ∉ s.data := by
  unfold validName at h
  simp only [Bool.and_eq_true, Bool.not_eq_true', beq_eq_false_iff_ne, ne_eq,
    List.isEmpty_eq_false, List.elem_eq_mem, decide_eq_false_iff_not] at h
  obtain ⟨⟨⟨h1, h2⟩, h3⟩, h4⟩ := h
  exact ⟨h1, h2, h3, h4⟩

theorem Join_append (base : Path) (xs ys : List String) :
    Join base (xs ++ ys) = Join (Join base xs) ys := by
  simp [Join, List.foldl_append]

theorem Join_valid (base : Path) (s : String) (h : validName s = true) :
    Join base [s] = base ++ [⟨s, h⟩] := by
  obtain ⟨h1, h2, h3, h4⟩ := validName_facts s h
  have hs : validName ⟨s.data⟩ = true := h
  simp only [Join, List.map_cons, List.map_nil, List.flatten_cons, List.flatten_nil,
    List.append_nil, pieces_of_no_slash s.data h4, List.foldl_cons, List.foldl_nil]
  simp [cleanStep, h1, h2, h3, hs]

/-! ## What `os.MkdirAll` keeps and what it creates -/

theorem lookupEntry_putEntry_ne (c d : Name) (hcd : c ≠ d) (x : Node) :
    ∀ es : List (Name × Node), lookupEntry c (putEntry d x es) = lookupEntry c es := by
  intro es
  have hdc : ¬ d = c := fun h => hcd h.symm
  induction es with
  | nil => simp [putEntry, lookupEntry, hdc]
  | cons e es ih =>
    obtain ⟨n, z⟩ := e
    by_cases hn : n = d
    · have hnc : ¬ n = c := fun h => hcd (h.symm.trans hn)
      simp [putEntry, lookupEntry, hn, hdc]
    · by_cases hnc : n = c
      · subst hnc
        simp [putEntry, lookupEntry, hcd]
      · simp [putEntry, lookupEntry, hn, hnc, ih]

theorem walk_empty_dir_file (q : Path) (content : String) :
    walk q (.dir []) ≠ .ok (.file content) := by
  cases q with
  | nil => simp [walk]
  | cons c cs => simp [walk, lookupEntry]

/-- The regular files of a file system are the same before and after a successful
`mkdirAllAt`. -/
theorem walk_file_mkdirAllAt : ∀ (p : Path) (n m : Node) (q : Path) (content : String),
    mkdirAllAt p n = .ok m →
      (walk q m = .ok (.file content) ↔ walk q n = .ok (.file content)) := by
  intro p
  induction p with
  | nil =>
    intro n m q content h
    cases n with
    | file c0 => simp [mkdirAllAt] at h
    | dir es =>
      simp only [mkdirAllAt, Except.ok.injEq] at h
      subst h
      exact Iff.rfl
  | cons d ds ih =>
    intro n m q content h
    cases n with
    | file c0 => simp [mkdirAllAt] at h
    | dir es =>
      simp only [mkdirAllAt] at h
      cases hx : mkdirAllAt ds ((lookupEntry d es).getD (.dir [])) with
      | error e => simp [hx] at h
      | ok x =>
        simp only [hx, Except.ok.injEq] at h
        subst h
        cases q with
        | nil => simp [walk]
        | cons c cs =>
          simp only [walk]
          by_cases hcd : c = d
          · subst hcd
            rw [lookupEntry_putEntry_self]
            simp only []
            rw [ih _ x cs content hx]
            cases hl : lookupEntry c es with
            | some y => simp
            | none =>
              simp only [Option.getD_none]
              constructor
              · intro hw; exact absurd hw (walk_empty_dir_file cs content)
              · intro hw; cases hw
          · rw [lookupEntry_putEntry_ne c d hcd]

/-- After a successful `mkdirAllAt` the directory either existed before or is empty. -/
theorem mkdirAllAt_fresh : ∀ (p : Path) (n m : Node),
    mkdirAllAt p n = .ok m →
      (∃ es, walk p n = .ok (.dir es)) ∨ walk p m = .ok (.dir []) := by
  intro p
  induction p with
  | nil =>
    intro n m h
    cases n with
    | file c0 => simp [mkdirAllAt] at h
    | dir es => exact Or.inl ⟨es, rfl⟩
  | cons d ds ih =>
    intro n m h
    cases n with
    | file c0 => simp [mkdirAllAt] at h
    | dir es =>
      simp only [mkdirAllAt] at h
      cases hx : mkdirAllAt ds ((lookupEntry d es).getD (.dir [])) with
      | error e => simp [hx] at h
      | ok x =>
        simp only [hx, Except.ok.injEq] at h
        subst h
        simp only [walk, lookupEntry_putEntry_self]
        cases hl : lookupEntry d es with
        | some y =>
          rw [hl] at hx
          simp only [Option.getD_some] at hx
          exact ih y x hx
        | none =>
          rw [hl] at hx
          simp only [Option.getD_none] at hx
          right
          rcases ih (.dir []) x hx with ⟨es2, h2⟩ | h2
          · cases ds with
            | nil =>
              simp only [mkdirAllAt, Except.ok.injEq] at hx
              subst hx
              rfl
            | cons d2 ds2 => simp [walk, lookupEntry] at h2
          · exact h2

theorem ReadFile_eq_ok (fs : Node) (p : Path) (content : String) :
    ReadFile fs p = .ok content ↔ walk p fs = .ok (.file content) := by
  unfold ReadFile
  cases hw : walk p fs with
  | error e => simp
  | ok node =>
    cases node with
    | file c => simp
    | dir es => simp

/-! ## Assignment resolution on the local backend -/

section Local

variable {Project Task Assignment Item : Type}

theorem MkdirAll_of_walk (fs : Node) (p : Path) (es : List (Name × Node))
    (h : walk p fs = .ok (.dir es)) : MkdirAll fs p = (none, fs) := by
  simp [MkdirAll, mkdirAllAt_of_walk p fs es h]

theorem walk_child (p : Path) (fs : Node) (es : List (Name × Node)) (c : Name)
    (h : walk p fs = .ok (.dir es)) :
    walk (p ++ [c]) fs = match lookupEntry c es with
      | some x => .ok x
      | none => .error .ENOENT := by
  rw [walk_append, h]
  simp only [walk]

/-- The resolution inside the directory `submissions/{taskIndex}/{workerId}`, once
`os.MkdirAll` has succeeded and left the file system `fs1` with the entries `es` in
that directory. -/
theorem GetAssignmentLocal_in_directory [Inhabited Assignment]
    (R : Records Project Task Assignment Item) (env : Env)
    (projectName taskIndex workerId : String) (fs fs1 : Node) (es : List (Name × Node))
    (hmk : MkdirAll fs (Join env.DataDir [projectName, "submissions", taskIndex, workerId]) =
      (none, fs1))
    (hdir : walk (Join env.DataDir [projectName, "submissions", taskIndex, workerId]) fs1 =
      .ok (.dir es)) :
    ((∃ es0, walk (Join env.DataDir [projectName, "submissions", taskIndex, workerId]) fs =
      .ok (.dir es0)) → fs1 = fs) ∧
    ((∃ e ∈ es, Ext e.1.val = ".json") →
      ∃ (c : Name) (x : Node), lookupEntry c es = some x ∧ Ext c.val = ".json" ∧
        (∀ e ∈ es, Ext e.1.val = ".json" → strLess c.val e.1.val = false) ∧
        GetAssignmentLocal R env projectName taskIndex workerId fs = (decodeEntry R x, fs1)) ∧
    ((∀ e ∈ es, Ext e.1.val ≠ ".json") →
      (∀ content,
        ReadFile fs1 (Join env.DataDir
          [projectName, "assignments", taskIndex, workerId ++ ".json"]) = .ok content →
        GetAssignmentLocal R env projectName taskIndex workerId fs =
          (decodeEntry R (.file content), fs1)) ∧
      (∀ err,
        ReadFile fs1 (Join env.DataDir
          [projectName, "assignments", taskIndex, workerId ++ ".json"]) = .error err →
        GetAssignmentLocal R env projectName taskIndex workerId fs =
          ((default, some err), fs1))) := by
  have hrd : ReadDir fs1 (Join env.DataDir [projectName, "submissions", taskIndex, workerId]) =
      .ok (sortSlice strLess (es.map (fun e => e.1.val))) := by
    simp [ReadDir, hdir]
  have hmem : ∀ s, s ∈ sortSlice strLess (es.map (fun e => e.1.val)) ↔
      s ∈ es.map (fun e => e.1.val) := fun s => (sortSlice_perm strLess _).mem_iff
  refine ⟨?_, ?_, ?_⟩
  · rintro ⟨es0, h0⟩
    have h1 := MkdirAll_of_walk fs _ es0 h0
    rw [h1] at hmk
    simp only [Prod.mk.injEq, true_and] at hmk
    exact hmk.symm
  · rintro ⟨e1, he1, hj1⟩
    have hin : e1.1.val ∈ (sortSlice strLess (es.map (fun e => e.1.val))).filter
        (fun fi => Ext fi = ".json") := by
      rw [List.mem_filter]
      exact ⟨(hmem _).2 (List.mem_map.2 ⟨e1, he1, rfl⟩), by simpa using hj1⟩
    cases hlast : ((sortSlice strLess (es.map (fun e => e.1.val))).filter
        (fun fi => Ext fi = ".json")).getLast? with
    | none =>
      rw [List.getLast?_eq_none_iff] at hlast
      rw [hlast] at hin
      simp at hin
    | some last =>
      have hlmem := List.mem_of_getLast?_eq_some hlast
      rw [List.mem_filter] at hlmem
      obtain ⟨e0, he0, hval⟩ := List.mem_map.1 ((hmem _).1 hlmem.1)
      obtain ⟨x, hx⟩ := lookupEntry_of_mem es e0 he0
      have hdom := getLast?_dominates (fun a b : String => strLess b a = false)
        (fun a => charsLess_irrefl a.data) _ last
        ((sortNames_pairwise _).filter _) hlast
      have hjoin : Join (Join env.DataDir [projectName, "submissions", taskIndex, workerId])
          [last] = Join env.DataDir [projectName, "submissions", taskIndex, workerId] ++ [e0.1] := by
        rw [← hval]
        exact Join_valid _ e0.1.val e0.1.property
      have hwalk := walk_child _ fs1 es e0.1 hdir
      rw [hx] at hwalk
      refine ⟨e0.1, x, hx, ?_, ?_, ?_⟩
      · have := hlmem.2
        simp only [decide_eq_true_eq] at this
        simpa [hval] using this
      · intro e he hj
        have h2 : e.1.val ∈ (sortSlice strLess (es.map (fun e => e.1.val))).filter
            (fun fi => Ext fi = ".json") := by
          rw [List.mem_filter]
          exact ⟨(hmem _).2 (List.mem_map.2 ⟨e, he, rfl⟩), by simpa using hj⟩
        have := hdom _ h2
        simpa [hval] using this
      · simp only [GetAssignmentLocal, hmk, hrd, hlast, hjoin, ReadFile, hwalk]
        cases x with
        | dir es2 => rfl
        | file content =>
          simp only [decodeEntry]
          cases R.unmarshalAssignment content <;> rfl
  · intro hnone
    have hlast : ((sortSlice strLess (es.map (fun e => e.1.val))).filter
        (fun fi => Ext fi = ".json")).getLast? = none := by
      rw [List.getLast?_eq_none_iff, List.filter_eq_nil_iff]
      intro s hs
      obtain ⟨e, he, hval⟩ := List.mem_map.1 ((hmem s).1 hs)
      have := hnone e he
      simpa [hval] using this
    constructor
    · intro content hc
      simp only [GetAssignmentLocal, hmk, hrd, hlast, hc, decodeEntry]
      cases R.unmarshalAssignment content <;> rfl
    · intro err hc
      simp only [GetAssignmentLocal, hmk, hrd, hlast, hc]

/-- C1 (amended): for every file system `fs` on which `os.MkdirAll` of
`submissions/{taskIndex}/{workerId}` succeeds, leaving `fs1`, that directory exists in
`fs1` with entries `es`; if it existed in `fs` then `fs1 = fs` and `es` are its
entries, and if it did not then `es` is empty. If `es` holds an entry with extension
".json", `GetAssignmentLocal` returns the decoding of the entry whose name is the
last among those in the order of file names, whatever the other entries; if it holds
none, the result is the decoding of `assignments/{taskIndex}/{workerId}.json` as
stored in `fs`, and an error when that file cannot be read. When `os.MkdirAll` fails
(a regular file stands on the path), `GetAssignmentLocal` returns an error and leaves
the file system as it is. -/
theorem GetAssignmentLocal_resolution [Inhabited Assignment]
    (R : Records Project Task Assignment Item) (env : Env)
    (projectName taskIndex workerId : String) (fs : Node) :
    (∀ fs1 : Node,
      MkdirAll fs (Join env.DataDir [projectName, "submissions", taskIndex, workerId]) =
        (none, fs1) →
      ∃ es : List (Name × Node),
        walk (Join env.DataDir [projectName, "submissions", taskIndex, workerId]) fs1 =
          .ok (.dir es) ∧
        (∀ es0, walk (Join env.DataDir [projectName, "submissions", taskIndex, workerId]) fs =
          .ok (.dir es0) → fs1 = fs ∧ es = es0) ∧
        ((∀ es0, walk (Join env.DataDir [projectName, "submissions", taskIndex, workerId]) fs ≠
          .ok (.dir es0)) → es = []) ∧
        ((∃ e ∈ es, Ext e.1.val = ".json") →
          ∃ (c : Name) (x : Node), lookupEntry c es = some x ∧ Ext c.val = ".json" ∧
            (∀ e ∈ es, Ext e.1.val = ".json" → strLess c.val e.1.val = false) ∧
            GetAssignmentLocal R env projectName taskIndex workerId fs =
              (decodeEntry R x, fs1)) ∧
        ((∀ e ∈ es, Ext e.1.val ≠ ".json") →
          (∀ content,
            ReadFile fs (Join env.DataDir
              [projectName, "assignments", taskIndex, workerId ++ ".json"]) = .ok content →
            GetAssignmentLocal R env projectName taskIndex workerId fs =
              (decodeEntry R (.file content), fs1)) ∧
          (∀ err,
            ReadFile fs (Join env.DataDir
              [projectName, "assignments", taskIndex, workerId ++ ".json"]) = .error err →
            ∃ e, GetAssignmentLocal R env projectName taskIndex workerId fs =
              ((default, some e), fs1)))) ∧
    (∀ err,
      (MkdirAll fs (Join env.DataDir [projectName, "submissions", taskIndex, workerId])).1 =
        some err →
      ∃ e, GetAssignmentLocal R env projectName taskIndex workerId fs =
        ((default, some e), fs)) := by
  constructor
  · intro fs1 hmk
    have hm : mkdirAllAt (Join env.DataDir [projectName, "submissions", taskIndex, workerId])
        fs = .ok fs1 := by
      unfold MkdirAll at hmk
      cases hm : mkdirAllAt (Join env.DataDir
          [projectName, "submissions", taskIndex, workerId]) fs with
      | error e => simp [hm] at hmk
      | ok m =>
        simp only [hm, Prod.mk.injEq, true_and] at hmk
        rw [hmk]
    obtain ⟨es, hdir⟩ := walk_mkdirAllAt _ fs fs1 hm
    obtain ⟨h1, h2, h3⟩ :=
      GetAssignmentLocal_in_directory R env projectName taskIndex workerId fs fs1 es hmk hdir
    refine ⟨es, hdir, ?_, ?_, h2, ?_⟩
    · intro es0 h0
      have hfs := h1 ⟨es0, h0⟩
      subst hfs
      rw [h0] at hdir
      simp only [Except.ok.injEq, Node.dir.injEq] at hdir
      exact ⟨rfl, hdir.symm⟩
    · intro hno
      rcases mkdirAllAt_fresh _ fs fs1 hm with ⟨es0, h0⟩ | hfresh
      · exact absurd h0 (hno es0)
      · rw [hdir] at hfresh
        simpa using hfresh
    · intro hnone
      obtain ⟨ha, hb⟩ := h3 hnone
      constructor
      · intro content hc
        apply ha
        rw [ReadFile_eq_ok] at hc ⊢
        exact (walk_file_mkdirAllAt _ fs fs1 _ content hm).2 hc
      · intro err hc
        cases hr : ReadFile fs1 (Join env.DataDir
            [projectName, "assignments", taskIndex, workerId ++ ".json"]) with
        | ok content =>
          have h4 := (ReadFile_eq_ok fs _ content).2
            ((walk_file_mkdirAllAt _ fs fs1 _ content hm).1 ((ReadFile_eq_ok fs1 _ content).1 hr))
          rw [hc] at h4
          cases h4
        | error e => exact ⟨e, hb e hr⟩
  · intro err herr
    cases hm : mkdirAllAt (Join env.DataDir
        [projectName, "submissions", taskIndex, workerId]) fs with
    | ok m => simp [MkdirAll, hm] at herr
    | error e0 =>
      cases hw : walk (Join env.DataDir [projectName, "submissions", taskIndex, workerId])
          fs with
      | error e => exact ⟨e, by simp only [GetAssignmentLocal, MkdirAll, hm, ReadDir, hw]⟩
      | ok node =>
        cases node with
        | file content =>
          exact ⟨.ENOTDIR, by simp only [GetAssignmentLocal, MkdirAll, hm, ReadDir, hw]⟩
        | dir es =>
          rw [mkdirAllAt_of_walk _ fs es hw] at hm
          cases hm

end Local

/-! ## Listing the tasks of a project -/

section Tasks

variable {Project Task Assignment Item : Type}

theorem readTaskFiles_ok (R : Records Project Task Assignment Item) (fs : Node) (dir : Path) :
    ∀ (names : List String) (acc tasks : List Task),
      readTaskFiles R fs dir names acc = (tasks, none) →
      ∃ decoded : List Task,
        List.Forall₂ (DecodesTo R fs dir)
          (names.filter (fun n => decide (len n > 5 ∧ Ext n = ".json"))) decoded ∧
        tasks = acc ++ decoded := by
  intro names
  induction names with
  | nil =>
    intro acc tasks h
    simp only [readTaskFiles, Prod.mk.injEq, and_true] at h
    exact ⟨[], by simp, by simp [h]⟩
  | cons name rest ih =>
    intro acc tasks h
    by_cases hrec : len name > 5 ∧ Ext name = ".json"
    · simp only [readTaskFiles, hrec, and_self, if_true] at h
      cases hrf : ReadFile fs (Join dir [name]) with
      | error e => simp [hrf] at h
      | ok content =>
        simp only [hrf] at h
        cases hun : R.unmarshalTask content with
        | error e => simp [hun] at h
        | ok task =>
          simp only [hun] at h
          obtain ⟨decoded, hd, ht⟩ := ih (acc ++ [task]) tasks h
          refine ⟨task :: decoded, ?_, by simp [ht]⟩
          rw [List.filter_cons_of_pos (by simpa using hrec)]
          exact List.Forall₂.cons ⟨content, hrf, hun⟩ hd
    · simp only [readTaskFiles, hrec, if_false] at h
      obtain ⟨decoded, hd, ht⟩ := ih acc tasks h
      refine ⟨decoded, ?_, ht⟩
      rw [List.filter_cons_of_neg (by simpa using hrec)]
      exact hd

theorem pairwise_lt_of_nodup {α : Type} (f : α → Int) (l : List α)
    (hle : l.Pairwise (fun a b => f a ≤ f b)) (hnd : (l.map f).Nodup) :
    l.Pairwise (fun a b => f a < f b) := by
  have hne : l.Pairwise (fun a b => f a ≠ f b) := by
    have := hnd
    unfold List.Nodup at this
    rw [List.pairwise_map] at this
    exact this
  exact (hle.and hne).imp (fun h => lt_of_le_of_ne h.1 h.2)

/-- C4 (amended): a successful `GetTasksInProjectLocal` returns a rearrangement of the
tasks decoded from the recognised files of the tasks directory (name longer than 5
bytes, extension ".json"), in ascending order of `Index`: no task has a smaller index
than an earlier one, and the order is strict when the decoded indices are pairwise
distinct. -/
theorem GetTasksInProjectLocal_sorted (R : Records Project Task Assignment Item) (env : Env)
    (projectName : String) (fs : Node) (tasks : List Task)
    (hok : (GetTasksInProjectLocal R env projectName fs).1 = (tasks, none)) :
    ∃ (es : List (Name × Node)) (names : List String) (decoded : List Task),
      walk (Join env.DataDir [projectName, "tasks"])
        (GetTasksInProjectLocal R env projectName fs).2 = .ok (.dir es) ∧
      names.Perm (es.map (fun e => e.1.val)) ∧
      List.Forall₂
        (DecodesTo R (GetTasksInProjectLocal R env projectName fs).2
          (Join env.DataDir [projectName, "tasks"]))
        (names.filter (fun n => decide (len n > 5 ∧ Ext n = ".json"))) decoded ∧
      tasks.Perm decoded ∧
      tasks.Pairwise (fun a b => R.Index a ≤ R.Index b) ∧
      ((decoded.map R.Index).Nodup → tasks.Pairwise (fun a b => R.Index a < R.Index b)) := by
  generalize hfs1 : (MkdirAll fs (Join env.DataDir [projectName, "tasks"])).2 = fs1
  have hstate : (GetTasksInProjectLocal R env projectName fs).2 = fs1 := by
    simp only [GetTasksInProjectLocal, hfs1]
    cases ReadDir fs1 (Join env.DataDir [projectName, "tasks"]) with
    | error e => rfl
    | ok names =>
      simp only []
      rcases readTaskFiles R fs1 (Join env.DataDir [projectName, "tasks"]) names []
        with ⟨ts, _ | e⟩ <;> rfl
  rw [hstate]
  simp only [GetTasksInProjectLocal, hfs1] at hok
  cases hw : walk (Join env.DataDir [projectName, "tasks"]) fs1 with
  | error e => simp [ReadDir, hw] at hok
  | ok node =>
    cases node with
    | file content => simp [ReadDir, hw] at hok
    | dir es =>
      have hrd : ReadDir fs1 (Join env.DataDir [projectName, "tasks"]) =
          .ok (sortSlice strLess (es.map (fun e => e.1.val))) := by
        simp [ReadDir, hw]
      simp only [hrd] at hok
      rcases hread : readTaskFiles R fs1 (Join env.DataDir [projectName, "tasks"])
          (sortSlice strLess (es.map (fun e => e.1.val))) [] with ⟨ts, _ | e⟩
      · simp only [hread, Prod.mk.injEq, and_true] at hok
        obtain ⟨decoded, hd, ht⟩ := readTaskFiles_ok R fs1 _ _ [] ts hread
        simp only [List.nil_append] at ht
        subst ht
        have hperm : tasks.Perm ts := by
          rw [← hok]; exact sortSlice_perm _ ts
        have hsorted : tasks.Pairwise (fun a b => R.Index a ≤ R.Index b) := by
          rw [← hok]
          refine (sortSlice_pairwise (fun a b => decide (R.Index a < R.Index b)) ?_ ?_ ts).imp ?_
          · intro a b
            simp only [decide_eq_false_iff_not, not_lt]
            exact le_total _ _
          · intro a b c
            simp only [decide_eq_false_iff_not, not_lt]
            exact fun h1 h2 => le_trans h1 h2
          · intro a b h
            simpa using h
        refine ⟨es, _, ts, rfl, sortSlice_perm strLess _, hd, hperm, hsorted, ?_⟩
        intro hnd
        refine pairwise_lt_of_nodup R.Index tasks hsorted ?_
        exact (hperm.map R.Index).nodup_iff.2 hnd
      · simp [hread] at hok

end Tasks

/-- C4 (witness): on `exampleFS` the tasks stored as 0002, 0000, 0001 come back as
0, 1, 2. -/
theorem GetTasksInProjectLocal_sorted_witness :
    (GetTasksInProjectLocal exampleRecords exampleEnv "p" exampleFS).1 = ([0, 1, 2], none) ∧
    ∃ (es : List (Name × Node)) (names : List String) (decoded : List Int),
      walk (Join exampleEnv.DataDir ["p", "tasks"])
        (GetTasksInProjectLocal exampleRecords exampleEnv "p" exampleFS).2 = .ok (.dir es) ∧
      names.Perm (es.map (fun e => e.1.val)) ∧
      List.Forall₂
        (DecodesTo exampleRecords (GetTasksInProjectLocal exampleRecords exampleEnv "p" exampleFS).2
          (Join exampleEnv.DataDir ["p", "tasks"]))
        (names.filter (fun n => decide (len n > 5 ∧ Ext n = ".json"))) decoded ∧
      List.Perm [0, 1, 2] decoded ∧
      List.Pairwise (fun a b => exampleRecords.Index a ≤ exampleRecords.Index b) [0, 1, 2] ∧
      ((decoded.map exampleRecords.Index).Nodup →
        List.Pairwise (fun a b => exampleRecords.Index a < exampleRecords.Index b) [0, 1, 2]) :=
  ⟨by decide,
    GetTasksInProjectLocal_sorted exampleRecords exampleEnv "p" exampleFS [0, 1, 2] (by decide)⟩

/-- C4 (as stated) fails: two recognised files with the same index give a successful
result that is not strictly ascending. -/
theorem GetTasksInProjectLocal_not_strict :
    ¬ (∀ tasks : List Int,
        (GetTasksInProjectLocal exampleRecords exampleEnv "p" duplicateIndexFS).1 = (tasks, none) →
        tasks.Pairwise (fun a b => exampleRecords.Index a < exampleRecords.Index b)) := by
  intro h
  have h2 := h [1, 1] (by decide)
  revert h2
  decide

/-! ## Deleting a project on the local backend -/

section Delete

variable {Project Task Assignment Item : Type}

theorem GetTasksInProjectLocal_eq (R : Records Project Task Assignment Item) (env : Env)
    (projectName : String) (fs : Node) :
    GetTasksInProjectLocal R env projectName fs =
      (listedTasks R (Join env.DataDir [projectName, "tasks"])
          (MkdirAll fs (Join env.DataDir [projectName, "tasks"])).2,
        (MkdirAll fs (Join env.DataDir [projectName, "tasks"])).2) := by
  simp only [GetTasksInProjectLocal, listedTasks]
  cases ReadDir (MkdirAll fs (Join env.DataDir [projectName, "tasks"])).2
      (Join env.DataDir [projectName, "tasks"]) with
  | error e => rfl
  | ok names =>
    simp only []
    rcases readTaskFiles R (MkdirAll fs (Join env.DataDir [projectName, "tasks"])).2
      (Join env.DataDir [projectName, "tasks"]) names [] with ⟨ts, _ | e⟩ <;> rfl

theorem ReadFile_congr (fsA fsB : Node) (p : Path) (h : walk p fsA = walk p fsB) :
    ReadFile fsA p = ReadFile fsB p := by
  simp only [ReadFile, h]

theorem readTaskFiles_congr (R : Records Project Task Assignment Item) (fsA fsB : Node)
    (dir : Path) (h : walk dir fsA = walk dir fsB) :
    ∀ (names : List String) (acc : List Task), (∀ s ∈ names, validName s = true) →
      readTaskFiles R fsA dir names acc = readTaskFiles R fsB dir names acc := by
  intro names
  induction names with
  | nil => intro acc _; rfl
  | cons name rest ih =>
    intro acc hv
    have hname := hv name (List.mem_cons_self _ _)
    have hrest : ∀ s ∈ rest, validName s = true := fun s hs => hv s (List.mem_cons_of_mem _ hs)
    have hrf : ReadFile fsA (Join dir [name]) = ReadFile fsB (Join dir [name]) := by
      apply ReadFile_congr
      rw [Join_valid dir name hname, walk_append, walk_append, h]
    simp only [readTaskFiles, hrf]
    split
    · cases ReadFile fsB (Join dir [name]) with
      | error e => rfl
      | ok content =>
        simp only []
        cases R.unmarshalTask content with
        | error e => rfl
        | ok task => exact ih _ hrest
    · exact ih _ hrest

theorem listedTasks_congr (R : Records Project Task Assignment Item) (fsA fsB : Node)
    (dir : Path) (h : walk dir fsA = walk dir fsB) :
    listedTasks R dir fsA = listedTasks R dir fsB := by
  simp only [listedTasks, ReadDir, h]
  cases hw : walk dir fsB with
  | error e => rfl
  | ok node =>
    cases node with
    | file content => rfl
    | dir es =>
      simp only []
      rw [readTaskFiles_congr R fsA fsB dir h]
      intro s hs
      obtain ⟨e, _, hval⟩ := List.mem_map.1 ((sortSlice_perm strLess _).mem_iff.1 hs)
      rw [← hval]
      exact e.1.property

theorem lookupEntry_removeEntry_self (a : Name) :
    ∀ es : List (Name × Node), lookupEntry a (removeEntry a es) = none := by
  intro es
  induction es with
  | nil => rfl
  | cons e es ih =>
    obtain ⟨n, z⟩ := e
    by_cases hn : n = a
    · simp [removeEntry, hn, ih]
    · simp [removeEntry, lookupEntry, hn, ih]

/-- C10 (amended): for two distinct project names `a` and `b` that are valid names of
a directory entry (not empty, no slash, neither `.` nor `..`), `DeleteProjectLocal a`
leaves everything stored under `{dataDir}/b` as it was, `GetProjectLocal b` and
`GetTasksInProjectLocal b` return the same results after the deletion as before it,
and after a deletion without error nothing is stored at `{dataDir}/a`. -/
theorem DeleteProjectLocal_frame [Inhabited Project] (R : Records Project Task Assignment Item)
    (env : Env) (a b : String) (fs : Node)
    (ha : validName a = true) (hb : validName b = true) (hab : a ≠ b) :
    (∀ q : Path, walk (env.DataDir ++ ⟨b, hb⟩ :: q) (DeleteProjectLocal env a fs).2 =
      walk (env.DataDir ++ ⟨b, hb⟩ :: q) fs) ∧
    (GetProjectLocal R env b (DeleteProjectLocal env a fs).2).1 = (GetProjectLocal R env b fs).1 ∧
    (GetTasksInProjectLocal R env b (DeleteProjectLocal env a fs).2).1 =
      (GetTasksInProjectLocal R env b fs).1 ∧
    ((DeleteProjectLocal env a fs).1 = none →
      walk (env.DataDir ++ [⟨a, ha⟩]) (DeleteProjectLocal env a fs).2 = .error .ENOENT) := by
  have hne : (⟨a, ha⟩ : Name) ≠ ⟨b, hb⟩ := fun h => hab (congrArg Subtype.val h)
  have hpj : validName "project.json" = true := by decide
  have hts : validName "tasks" = true := by decide
  have hJa : Join env.DataDir [a] = env.DataDir ++ [⟨a, ha⟩] := Join_valid _ a ha
  have hJp : Join env.DataDir [b, "project.json"] =
      env.DataDir ++ ⟨b, hb⟩ :: [⟨"project.json", hpj⟩] := by
    rw [show [b, "project.json"] = [b] ++ ["project.json"] from rfl, Join_append,
      Join_valid _ b hb, Join_valid _ _ hpj]
    simp
  have hJt : Join env.DataDir [b, "tasks"] = env.DataDir ++ ⟨b, hb⟩ :: [⟨"tasks", hts⟩] := by
    rw [show [b, "tasks"] = [b] ++ ["tasks"] from rfl, Join_append,
      Join_valid _ b hb, Join_valid _ _ hts]
    simp
  cases hm : mkdirAllAt env.DataDir fs with
  | error e =>
    have hdel : DeleteProjectLocal env a fs = (some e, fs) := by
      simp [DeleteProjectLocal, MkdirAll, hm]
    rw [hdel]
    exact ⟨fun _ => rfl, rfl, rfl, fun h => by simp at h⟩
  | ok fs1 =>
    have hdel : DeleteProjectLocal env a fs =
        (none, removeAllAt (env.DataDir ++ [⟨a, ha⟩]) fs1) := by
      simp [DeleteProjectLocal, MkdirAll, hm, RemoveAll, hJa]
    rw [hdel]
    simp only []
    obtain ⟨es1, hw1⟩ := walk_mkdirAllAt _ fs fs1 hm
    have hw2 := walk_removeAllAt_parent ⟨a, ha⟩ env.DataDir fs1 es1 hw1
    have hframe : ∀ q : Path,
        walk (env.DataDir ++ ⟨b, hb⟩ :: q) (removeAllAt (env.DataDir ++ [⟨a, ha⟩]) fs1) =
          walk (env.DataDir ++ ⟨b, hb⟩ :: q) fs := by
      intro q
      rw [walk_removeAllAt_ne _ _ hne, walk_below_mkdirAllAt _ fs fs1 _ q hm]
    refine ⟨hframe, ?_, ?_, ?_⟩
    · have hmk1 : MkdirAll fs env.DataDir = (none, fs1) := by simp [MkdirAll, hm]
      have hmk2 := MkdirAll_of_walk _ _ _ hw2
      have hrf : ReadFile (removeAllAt (env.DataDir ++ [⟨a, ha⟩]) fs1)
            (Join env.DataDir [b, "project.json"]) =
          ReadFile fs1 (Join env.DataDir [b, "project.json"]) := by
        apply ReadFile_congr
        rw [hJp, walk_removeAllAt_ne _ _ hne]
      simp only [GetProjectLocal, hmk1, hmk2, hrf]
      cases ReadFile fs1 (Join env.DataDir [b, "project.json"]) with
      | error e => rfl
      | ok content =>
        simp only []
        cases R.unmarshalProject content <;> rfl
    · rw [GetTasksInProjectLocal_eq, GetTasksInProjectLocal_eq]
      simp only []
      apply listedTasks_congr
      rw [hJt]
      have h1 : mkdirAllAt (env.DataDir ++ ⟨b, hb⟩ :: [⟨"tasks", hts⟩]) fs =
          mkdirAllAt (env.DataDir ++ ⟨b, hb⟩ :: [⟨"tasks", hts⟩]) fs1 :=
        mkdirAllAt_append _ _ fs fs1 hm
      have h2 := mkdirAllAt_removeAllAt_comm _ _ hne env.DataDir fs1 [⟨"tasks", hts⟩]
      simp only [MkdirAll, h1, h2]
      cases h3 : mkdirAllAt (env.DataDir ++ ⟨b, hb⟩ :: [⟨"tasks", hts⟩]) fs1 with
      | ok fs2 =>
        simp only []
        exact walk_removeAllAt_ne _ _ hne _ _ _
      | error e =>
        simp only []
        exact hframe _
    · intro _
      rw [walk_append, hw2]
      simp [walk, lookupEntry_removeEntry_self]

end Delete

/-- C10 (witness): deleting project `q` on `exampleFS` leaves project `p` readable. -/
theorem DeleteProjectLocal_frame_witness :
    validName "q" = true ∧ validName "p" = true ∧ ("q" : String) ≠ "p" ∧
    (GetProjectLocal exampleRecords exampleEnv "p"
        (DeleteProjectLocal exampleEnv "q" exampleFS).2).1 = ("project p", none) ∧
    (GetTasksInProjectLocal exampleRecords exampleEnv "p"
        (DeleteProjectLocal exampleEnv "q" exampleFS).2).1 = ([0, 1, 2], none) := by
  have h := DeleteProjectLocal_frame exampleRecords exampleEnv "q" "p" exampleFS
    (by decide) (by decide) (by decide)
  refine ⟨by decide, by decide, by decide, ?_, ?_⟩
  · rw [h.2.1]; decide
  · rw [h.2.2.1]; decide

/-- C10 (as stated) fails: the names `""` and `"p/"` differ from `"p"`, and deleting
either of them removes the records of project `p`. -/
theorem DeleteProjectLocal_not_frame :
    (("" : String) ≠ "p" ∧
      (GetProjectLocal exampleRecords exampleEnv "p"
        (DeleteProjectLocal exampleEnv "" exampleFS).2).1 ≠
      (GetProjectLocal exampleRecords exampleEnv "p" exampleFS).1) ∧
    (("p/" : String) ≠ "p" ∧
      (GetTasksInProjectLocal exampleRecords exampleEnv "p"
        (DeleteProjectLocal exampleEnv "p/" exampleFS).2).1 ≠
      (GetTasksInProjectLocal exampleRecords exampleEnv "p" exampleFS).1) := by
  decide

/-- C1 (witness): on `exampleFS` the submissions of worker `w` for task 0000 are
"2019-02.json", "2019-01.json" and a stray text file, and the result is the decoding
of "2019-02.json"; on `pristineFS` the directory of the submissions is missing, is
created, and the result is the decoding of `assignments/0000/w.json`. -/
theorem GetAssignmentLocal_resolution_witness :
    (GetAssignmentLocal exampleRecords exampleEnv "p" "0000" "w" exampleFS).1 =
      ("second", none) ∧
    (∃ (c : Name) (x : Node), lookupEntry c exampleSubmissions = some x ∧
      Ext c.val = ".json" ∧
      (∀ e ∈ exampleSubmissions, Ext e.1.val = ".json" → strLess c.val e.1.val = false) ∧
      GetAssignmentLocal exampleRecords exampleEnv "p" "0000" "w" exampleFS =
        (decodeEntry exampleRecords x, exampleFS)) ∧
    walk (Join exampleEnv.DataDir ["p", "submissions", "0000", "w"]) pristineFS =
      .error .ENOENT ∧
    (∃ fs1 : Node,
      MkdirAll pristineFS (Join exampleEnv.DataDir ["p", "submissions", "0000", "w"]) =
        (none, fs1) ∧
      GetAssignmentLocal exampleRecords exampleEnv "p" "0000" "w" pristineFS =
        (("pristine", none), fs1)) := by
  refine ⟨by decide, ?_, rfl, ?_⟩
  · obtain ⟨es, _, hex, _, hjson, _⟩ :=
      (GetAssignmentLocal_resolution exampleRecords exampleEnv "p" "0000" "w" exampleFS).1
        exampleFS rfl
    obtain ⟨_, hes⟩ := hex exampleSubmissions rfl
    subst hes
    exact hjson ⟨(⟨"2019-01.json", by decide⟩, .file "first"), by simp [exampleSubmissions],
      by decide⟩
  · refine ⟨_, rfl, ?_⟩
    obtain ⟨es, _, _, hnew, _, hnone⟩ :=
      (GetAssignmentLocal_resolution exampleRecords exampleEnv "p" "0000" "w" pristineFS).1
        _ rfl
    have hes : es = [] := by
      apply hnew
      intro es0 h0
      have h1 : walk (Join exampleEnv.DataDir ["p", "submissions", "0000", "w"]) pristineFS =
          .error .ENOENT := rfl
      rw [h1] at h0
      cases h0
    subst hes
    exact (hnone (by simp)).1 "pristine" rfl

/-- C1 (as stated) fails: in `blockedFS` a regular file stands on the path of
`submissions/0000/w`, so that directory holds no entry with extension ".json", and
`assignments/0000/w.json` is read and decoded as "pristine"; yet the result of
`GetAssignmentLocal` is the error `ENOTDIR`, not that decoding. -/
theorem GetAssignmentLocal_blocked :
    walk (Join exampleEnv.DataDir ["p", "submissions", "0000", "w"]) blockedFS =
      .error .ENOTDIR ∧
    ReadFile blockedFS (Join exampleEnv.DataDir ["p", "assignments", "0000", "w" ++ ".json"]) =
      .ok "pristine" ∧
    exampleRecords.unmarshalAssignment "pristine" = .ok "pristine" ∧
    (GetAssignmentLocal exampleRecords exampleEnv "p" "0000" "w" blockedFS).1 =
      ("", some .ENOTDIR) ∧
    (GetAssignmentLocal exampleRecords exampleEnv "p" "0000" "w" blockedFS).1 ≠
      decodeEntry exampleRecords (.file "pristine") :=
  ⟨rfl, rfl, rfl, by decide, by decide⟩

/-! ## The dispatcher and the remote backend -/

/-- C8: whatever the backend flag and the storage, `GetTasksInProject ""` is the error
"Empty project name" with an empty task list, computed without consulting either
backend and leaving the file system as it is; for a non-empty name the result is that
of the backend selected by the flag. -/
theorem GetTasksInProject_dispatch {Project Task Assignment Item : Type}
    (R : Records Project Task Assignment Item) (env : Env) (svc : Svc Item) (fs : Node) :
    GetTasksInProject R env svc "" fs = (([], some (Error.New "Empty project name")), fs) ∧
    ∀ projectName : String, projectName ≠ "" →
      GetTasksInProject R env svc projectName fs =
        if env.Database = true then (GetTasksInProjectDatabase R svc projectName, fs)
        else GetTasksInProjectLocal R env projectName fs := by
  refine ⟨by simp [GetTasksInProject], ?_⟩
  intro projectName hne
  simp [GetTasksInProject, hne]

/-- C7 (failing input): with a client whose scans fail, `GetTasksInProjectDatabase`
returns an empty task list and no error, and `GetAssignmentDatabase` returns the
assignment found by `GetItem` and no error. -/
theorem scan_error_is_dropped :
    (failingScanSvc.Scan "Task" "ProjectName" "p").2 =
      some (.Aws "ProvisionedThroughputExceededException") ∧
    GetTasksInProjectDatabase exampleRecords failingScanSvc "p" = ([], none) ∧
    (failingScanSvc.Scan "Submission" "PrimaryKey" ("p" ++ "0000" ++ "w")).2 =
      some (.Aws "ProvisionedThroughputExceededException") ∧
    GetAssignmentDatabase exampleRecords failingScanSvc "p" "0000" "w" = ("pristine", none) := by
  decide

/-! ## Duplicate project names on the local backend -/

/-- C2 (failing input): the project `v1.0` exists in the data directory (its entry is
listed and `GetProjectLocal` reads it), yet `CheckProjectNameLocal "v1.0"` returns
the name and not the empty string. -/
theorem CheckProjectNameLocal_misses_dotted_name :
    ReadDir dottedFS exampleEnv.DataDir = .ok ["v1.0"] ∧
    (GetProjectLocal exampleRecords exampleEnv "v1.0" dottedFS).1 = ("project v1.0", none) ∧
    replaceSpaces "v1.0" = "v1.0" ∧
    (CheckProjectNameLocal exampleEnv "v1.0" dottedFS).1 = "v1.0" :=
  ⟨rfl, by decide, by decide, by decide⟩

/-- C3 (failing input): the data directory holds the single entry `v1.0` and none
called `v1`, yet `CheckProjectNameLocal "v1"` returns the empty string. -/
theorem CheckProjectNameLocal_rejects_free_name :
    ReadDir dottedFS exampleEnv.DataDir = .ok ["v1.0"] ∧
    replaceSpaces "v1" = "v1" ∧ "v1" ∉ ["v1.0"] ∧
    (CheckProjectNameLocal exampleEnv "v1" dottedFS).1 = "" :=
  ⟨rfl, by decide, by decide, by decide⟩

end Scalabel
